import Mathlib

/-!
Verification of the context-usage tree model builder of the
`opencode-context-treemap` tool (`src/opencode.ts`).

The development shallowly embeds the data model and the pure core of the
program: the Size Estimator (`getPartSize`), the Label Classifier
(`getPartLabel`, together with a model of Node's POSIX `path.relative`,
which resolves its arguments against the ambient working directory), the
size formatter (`formatCharSize`), the Tree Builder (`messageNodes`,
`rootNode`), the `partsMap` index and the leaf-selection handler.

Modelling conventions:
* JavaScript strings are modelled as Lean `String`s and `s.length` as
  `String.length` (code-point count instead of UTF-16 units; no claim
  depends on the difference).
* `JSON.stringify` is modelled by `jsonStringify` over an explicit `Json`
  syntax tree; numbers are integers and only the escapes relevant to the
  common characters are emitted.  No claim depends on the exact
  serialization, only on it being a fixed function of the input.
* Node's `path.relative(from, to)` resolves both arguments against
  `process.cwd()`; the ambient working directory is made an explicit
  first argument (`cwd`) of the path functions and of `getPartLabel`.
* `chars / 1000` is IEEE binary64 division; it is modelled exactly (for
  `1 ≤ chars / 1000` and `chars < 2^53`, which covers every reachable
  call) by `flMant`/`flScale`: round to nearest with ties to even onto a
  53-bit significand, the value being the dyadic rational
  `flMant / 2^flScale`.  `Number.prototype.toFixed(1)` is modelled per
  ECMA-262 by `jsToFixed1Tenths`: the integer nearest to ten times the
  double's exact value, ties to the larger.
-/

namespace Opencode

/-- JSON values, the type of tool inputs (`part.state.input`). -/
inductive Json where
  | null : Json
  | bool (b : Bool) : Json
  | num (n : Int) : Json
  | str (s : String) : Json
  | arr (elems : List Json) : Json
  | obj (fields : List (String × Json)) : Json
deriving Repr

/-- Escaping of one character inside a JSON string literal. -/
def jsonEscapeChar (c : Char) : List Char :=
  if c = '"' then ['\\', '"']
  else if c = '\\' then ['\\', '\\']
  else if c = '\n' then ['\\', 'n']
  else if c = '\t' then ['\\', 't']
  else if c = '\r' then ['\\', 'r']
  else [c]

/-- Escaping of a whole JSON string literal body. -/
def jsonEscape (cs : List Char) : List Char :=
  match cs with
  | [] => []
  | c :: rest => jsonEscapeChar c ++ jsonEscape rest

mutual

/-- Model of `JSON.stringify` (compact form, no spacing). -/
def jsonStringify : Json → String
  | .null => "null"
  | .bool true => "true"
  | .bool false => "false"
  | .num n => toString n
  | .str s => "\"" ++ String.mk (jsonEscape s.data) ++ "\""
  | .arr elems => "[" ++ jsonStringifyList elems ++ "]"
  | .obj fields => "\x7b" ++ jsonStringifyFields fields ++ "\x7d"

/-- Comma-separated serialization of array elements. -/
def jsonStringifyList : List Json → String
  | [] => ""
  | [j] => jsonStringify j
  | j :: rest => jsonStringify j ++ "," ++ jsonStringifyList rest

/-- Comma-separated serialization of object fields. -/
def jsonStringifyFields : List (String × Json) → String
  | [] => ""
  | [(k, j)] => "\"" ++ String.mk (jsonEscape k.data) ++ "\":" ++ jsonStringify j
  | (k, j) :: rest =>
      "\"" ++ String.mk (jsonEscape k.data) ++ "\":" ++ jsonStringify j ++ "," ++
        jsonStringifyFields rest

end

/-- The `source` field of a `file` part: optional inline text
(`source.text.value`) and optional on-disk path (`source.path`). -/
structure FileSource where
  text : Option String
  path : Option String
deriving Repr

/-- The `time` record of a completed tool state; only the `compacted`
flag is consumed by the program (`part.state.time.compacted`). -/
structure CompletedTime where
  compacted : Bool
deriving Repr

/-- The tool-part sub-state machine (`part.state`). -/
inductive ToolState where
  | pending (input : Json)
  | running (input : Json)
  | completed (input : Json) (output : String) (time : CompletedTime)
  | error (input : Json) (err : String)
deriving Repr

/-- The input carried by a tool state (`part.state.input`). -/
def ToolState.input : ToolState → Json
  | .pending i => i
  | .running i => i
  | .completed i _ _ => i
  | .error i _ => i

/-- The `Part` tagged union of the SDK, restricted to the fields the
program reads. -/
inductive Part where
  | text (text : String)
  | reasoning (text : String)
  | tool (tool : String) (state : ToolState)
  | file (source : Option FileSource) (filename : Option String) (url : String)
  | subtask (prompt : String) (description : String) (agent : String)
  | stepStart
  | stepFinish
  | snapshot
  | patch
  | agent
  | retry
  | compaction
deriving Repr

/-- The `type` tag of a part, as the SDK spells it. -/
def Part.typeTag : Part → String
  | .text _ => "text"
  | .reasoning _ => "reasoning"
  | .tool _ _ => "tool"
  | .file _ _ _ => "file"
  | .subtask _ _ _ => "subtask"
  | .stepStart => "step-start"
  | .stepFinish => "step-finish"
  | .snapshot => "snapshot"
  | .patch => "patch"
  | .agent => "agent"
  | .retry => "retry"
  | .compaction => "compaction"

/-- `getPartSize` of `src/opencode.ts` (primary iteration, lines 33-74):
the Size Estimator. -/
def getPartSize : Part → Nat
  | .text t => t.length
  | .reasoning t => t.length
  | .tool _ state =>
      match state with
      | .completed input output time =>
          let inputSize := (jsonStringify input).length
          let outputSize := if time.compacted then 0 else output.length
          inputSize + outputSize
      | .running input => (jsonStringify input).length
      | .pending input => (jsonStringify input).length
      | .error input err => (jsonStringify input).length + err.length
  | .file source _ url =>
      match source with
      | some src =>
          match src.text with
          | some v => v.length
          | none => url.length
      | none => url.length
  | .subtask prompt description _ => prompt.length + description.length
  | .stepStart => 0
  | .stepFinish => 0
  | .snapshot => 0
  | .patch => 0
  | .agent => 0
  | .retry => 0
  | .compaction => 0

/-- `getPartSize` of the second iteration of `src/opencode.ts` (lines
432-473): identical except that the control/bookkeeping kinds are charged
`JSON.stringify(part).length`; the runtime serialization of the whole
part object is abstracted as the parameter `stringifyPart`. -/
def getPartSizeAlt (stringifyPart : Part → String) : Part → Nat
  | .text t => t.length
  | .reasoning t => t.length
  | .tool _ state =>
      match state with
      | .completed input output time =>
          let inputSize := (jsonStringify input).length
          let outputSize := if time.compacted then 0 else output.length
          inputSize + outputSize
      | .running input => (jsonStringify input).length
      | .pending input => (jsonStringify input).length
      | .error input err => (jsonStringify input).length + err.length
  | .file source _ url =>
      match source with
      | some src =>
          match src.text with
          | some v => v.length
          | none => url.length
      | none => url.length
  | .subtask prompt description _ => prompt.length + description.length
  | .stepStart => (stringifyPart .stepStart).length
  | .stepFinish => (stringifyPart .stepFinish).length
  | .snapshot => (stringifyPart .snapshot).length
  | .patch => (stringifyPart .patch).length
  | .agent => (stringifyPart .agent).length
  | .retry => (stringifyPart .retry).length
  | .compaction => (stringifyPart .compaction).length

/-- Fuel-based binary logarithm: `natLog2Aux f n` is the floor of
`log2 n` whenever `n ≤ f`. -/
def natLog2Aux : Nat → Nat → Nat
  | 0, _ => 0
  | f + 1, n => if 2 ≤ n then natLog2Aux f (n / 2) + 1 else 0

/-- Floor of the binary logarithm (0 at 0). -/
def natLog2 (n : Nat) : Nat := natLog2Aux n n

/-- Round the rational `a / b` to the nearest integer, ties to even -
the IEEE binary64 rounding mode. -/
def roundHalfEvenNat (a b : Nat) : Nat :=
  if 2 * (a % b) < b then a / b
  else if b < 2 * (a % b) then a / b + 1
  else if (a / b) % 2 = 0 then a / b else a / b + 1

/-- The scale of the IEEE binary64 value of `a / b`: with `L` the binary
exponent of the quotient, a 53-bit significand sits at `2^(52 - L)`.
Valid for quotients in `[1, 2^53)`, the normal range every division of
`formatCharSize` stays in. -/
def flScale (a b : Nat) : Nat := 52 - natLog2 (a / b)

/-- The significand of the IEEE binary64 value of `a / b`: the quotient
scaled to 53 bits and rounded to nearest, ties to even.  The double
computed by JavaScript for `a / b` is exactly
`flMant a b / 2 ^ flScale a b`. -/
def flMant (a b : Nat) : Nat := roundHalfEvenNat (a * 2 ^ flScale a b) b

/-- ECMA-262 `toFixed(1)` digit selection on the double
`mant / 2^sc`: the integer nearest to ten times the value, ties to the
larger, i.e. the floor of `10 * mant / 2^sc + 1/2`. -/
def jsToFixed1Tenths (mant sc : Nat) : Nat := (20 * mant + 2 ^ sc) / 2 ^ (sc + 1)

/-- One-decimal rendering: `toFixed(1)` prints `n10` tenths as
`"<n10 / 10>.<n10 % 10>"`. -/
def toFixed1 (n10 : Nat) : String :=
  toString (n10 / 10) ++ "." ++ toString (n10 % 10)

/-- `formatCharSize` of `src/opencode.ts` (lines 109-115).  The
JavaScript code computes `k = chars / 1000` in binary64, compares
`k < 1000`, and renders `k.toFixed(1)` (resp. `m = k / 1000` and
`m.toFixed(1)`); each double is carried here as its exact
significand/scale pair, so e.g. `formatCharSize 1150 = "1.1K chars"`
exactly as the program prints (the double `1150 / 1000` lies below
`1.15`). -/
def formatCharSize (chars : Nat) : String :=
  if chars < 1000 then toString chars ++ " chars"
  else
    let kMant := flMant chars 1000
    let kScale := flScale chars 1000
    if kMant < 1000 * 2 ^ kScale then
      toFixed1 (jsToFixed1Tenths kMant kScale) ++ "K chars"
    else
      toFixed1 (jsToFixed1Tenths (flMant kMant (1000 * 2 ^ kScale))
        (flScale kMant (1000 * 2 ^ kScale))) ++ "M chars"

/-! ### POSIX path model (Node `path.resolve` / `path.relative`) -/

/-- Split a character list at every `'/'` (keeping empty pieces). -/
def splitSlashAux : List Char → List Char → List (List Char)
  | [], acc => [acc.reverse]
  | c :: cs, acc =>
      if c = '/' then acc.reverse :: splitSlashAux cs []
      else splitSlashAux cs (c :: acc)

/-- Split a path string at every `'/'` (keeping empty pieces). -/
def splitSlash (s : String) : List String :=
  (splitSlashAux s.data []).map (fun cs => String.mk cs)

/-- The non-trivial segments of a path: empty pieces (from doubled or
leading/trailing slashes) and `"."` segments are dropped, as Node's
normalization does. -/
def pathSegs (s : String) : List String :=
  (splitSlash s).filter (fun seg => seg ≠ "" && seg ≠ ".")

/-- Process `".."` segments by popping, as `path.resolve` does on an
absolute base (a `".."` above the root is dropped). -/
def normSegs (segs : List String) : List String :=
  segs.foldl (fun acc seg => if seg = ".." then acc.dropLast else acc ++ [seg]) []

/-- Whether a path string is absolute. -/
def isAbsolute (s : String) : Bool :=
  match s.data with
  | [] => false
  | c :: _ => c = '/'

/-- `path.resolve(p)` under working directory `cwd` (assumed absolute),
as the list of segments of the resulting absolute path. -/
def posixResolve (cwd p : String) : List String :=
  if isAbsolute p then normSegs (pathSegs p)
  else normSegs (pathSegs cwd ++ pathSegs p)

/-- Drop the longest common prefix of two segment lists. -/
def dropCommon : List String → List String → List String × List String
  | a :: as, b :: bs => if a = b then dropCommon as bs else (a :: as, b :: bs)
  | as, bs => (as, bs)

/-- Join segments with `'/'`. -/
def joinSegs : List String → String
  | [] => ""
  | [s] => s
  | s :: rest => s ++ "/" ++ joinSegs rest

/-- Node's POSIX `path.relative(fromPath, toPath)` under working
directory `cwd`: resolve both, drop the common prefix, climb with
`".."` and descend into the remainder. -/
def posixRelative (cwd fromPath toPath : String) : String :=
  let pr := dropCommon (posixResolve cwd fromPath) (posixResolve cwd toPath)
  joinSegs (List.replicate pr.1.length ".." ++ pr.2)

/-- `s.startsWith(pre)`. -/
def strStartsWith (s pre : String) : Bool :=
  List.isPrefixOf pre.data s.data

/-- The `filename || url` fallback (JavaScript `||`: an empty or absent
filename falls through to the url). -/
def filenameOrUrl (filename : Option String) (url : String) : String :=
  match filename with
  | some f => if f = "" then url else f
  | none => url

/-- `getPartLabel` of `src/opencode.ts` (primary iteration, lines
76-107): the Label Classifier.  `cwd` is the ambient working directory
consumed by `path.relative`. -/
def getPartLabel (cwd : String) (part : Part) (projectPath : String) : String :=
  let relativePath := fun (filePath : String) =>
    let rel := posixRelative cwd projectPath filePath
    if strStartsWith rel ".." then filePath else rel
  match part with
  | .text _ => "text"
  | .reasoning _ => "reasoning"
  | .tool tool state =>
      let input := state.input
      if tool = "read" ∨ tool = "write" then
        match input with
        | .obj fields =>
            match List.lookup "filePath" fields with
            | some (.str fp) => "tool:" ++ tool ++ ":" ++ relativePath fp
            | some _ => "tool:" ++ tool
            | none => "tool:" ++ tool
        | _ => "tool:" ++ tool
      else "tool:" ++ tool
  | .file source filename url =>
      let filePath :=
        match source with
        | some src =>
            match src.path with
            | some p => p
            | none => filenameOrUrl filename url
        | none => filenameOrUrl filename url
      "file:" ++ relativePath filePath
  | .subtask _ _ agentName => "subtask:" ++ agentName
  | p => p.typeTag

/-- The static color palette (`colorMap`, lines 118-152). -/
def colorMap : List (String × String) :=
  [("user", "#4ade80"), ("assistant", "#818cf8"),
   ("text", "#60a5fa"), ("reasoning", "#c084fc"), ("file", "#fbbf24"),
   ("tool:read", "#34d399"), ("tool:write", "#f87171"),
   ("tool:edit", "#fb923c"), ("tool:bash", "#38bdf8"),
   ("tool:glob", "#a3e635"), ("tool:grep", "#2dd4bf"),
   ("tool:list", "#facc15"), ("tool:task", "#e879f9"),
   ("tool:todowrite", "#a78bfa"), ("tool:todoread", "#93c5fd"),
   ("tool:webfetch", "#4ade80"), ("tool:googlesearch", "#f472b6"),
   ("tool", "#94a3b8"), ("subtask", "#d946ef"),
   ("step-start", "#64748b"), ("step-finish", "#78716c"),
   ("snapshot", "#6b7280"), ("patch", "#fb7185"), ("agent", "#a78bfa"),
   ("retry", "#ef4444"), ("compaction", "#14b8a6")]

/-- `getPartColorType` (lines 154-159): tool parts use their dedicated
palette key when present, else the generic `"tool"` key. -/
def getPartColorType (part : Part) : String :=
  match part with
  | .tool tool _ =>
      if (List.lookup ("tool:" ++ tool) colorMap).isSome then "tool:" ++ tool
      else "tool"
  | p => p.typeTag

/-! ### Tree Builder -/

/-- The `info` record of a message; the program reads only `role`. -/
structure MessageInfo where
  role : String
deriving Repr

/-- A message: its `info` and its ordered parts. -/
structure Message where
  info : MessageInfo
  parts : List Part
deriving Repr

/-- The `TreeNode` record handed to the external treemap renderer.
Optional fields model fields the TypeScript object literals sometimes
omit. -/
inductive TreeNode where
  | mk (name : String) (value : Nat) (layer : Option Nat)
      (colorType : Option String) (children : Option (List TreeNode))
      (partKey : Option String)

/-- Node name. -/
def TreeNode.name : TreeNode → String
  | .mk n _ _ _ _ _ => n

/-- Node value (size; 0 for containers). -/
def TreeNode.value : TreeNode → Nat
  | .mk _ v _ _ _ _ => v

/-- Node layer hint. -/
def TreeNode.layer : TreeNode → Option Nat
  | .mk _ _ l _ _ _ => l

/-- Node color category. -/
def TreeNode.colorType : TreeNode → Option String
  | .mk _ _ _ c _ _ => c

/-- Node children (`none` for leaves). -/
def TreeNode.children : TreeNode → Option (List TreeNode)
  | .mk _ _ _ _ ch _ => ch

/-- Node leaf key. -/
def TreeNode.partKey : TreeNode → Option String
  | .mk _ _ _ _ _ k => k

/-- The leaf key template string of the code:
`` `${msgIndex}-${partIndex}` ``. -/
def partKeyString (msgIndex partIndex : Nat) : String :=
  toString msgIndex ++ "-" ++ toString partIndex

/-- The leaf built for one part (the object literal of lines 300-306). -/
def partLeaf (cwd projectPath : String) (msgIndex partIndex : Nat) (part : Part) :
    TreeNode :=
  .mk (getPartLabel cwd part projectPath) (getPartSize part) (some 1)
    (some (getPartColorType part)) none (some (partKeyString msgIndex partIndex))

/-- `msg.parts.map((part, partIndex) => ...)` of lines 295-307, with the
running part index made explicit. -/
def partLeaves (cwd projectPath : String) (msgIndex : Nat) :
    Nat → List Part → List TreeNode
  | _, [] => []
  | j, p :: rest =>
      partLeaf cwd projectPath msgIndex j p ::
        partLeaves cwd projectPath msgIndex (j + 1) rest

/-- The container node built for one message (lines 309-316); `total` is
`messages.length`, used for the `(last)` marker. -/
def messageNode (cwd projectPath : String) (total msgIndex : Nat) (msg : Message) :
    TreeNode :=
  .mk (msg.info.role ++ ":" ++ toString msgIndex ++
        (if msgIndex = total - 1 then " (last)" else ""))
    0 (some 0) (some msg.info.role)
    (some (partLeaves cwd projectPath msgIndex 0 msg.parts)) none

/-- `messages.map((msg, msgIndex) => ...)` of lines 291-317, with the
running message index made explicit. -/
def messageNodesFrom (cwd projectPath : String) (total : Nat) :
    Nat → List Message → List TreeNode
  | _, [] => []
  | i, m :: rest =>
      messageNode cwd projectPath total i m ::
        messageNodesFrom cwd projectPath total (i + 1) rest

/-- The `messageNodes` array of line 291. -/
def messageNodes (cwd projectPath : String) (msgs : List Message) : List TreeNode :=
  messageNodesFrom cwd projectPath msgs.length 0 msgs

/-- The `rootNode` of lines 319-323. -/
def rootNode (cwd projectPath : String) (msgs : List Message) : TreeNode :=
  .mk "session" 0 none none (some (messageNodes cwd projectPath msgs)) none

/-- The entries `partsMap.set` records for one message's parts, in
insertion order. -/
def partsEntries (msgIndex : Nat) : Nat → List Part → List (String × Part)
  | _, [] => []
  | j, p :: rest => (partKeyString msgIndex j, p) :: partsEntries msgIndex (j + 1) rest

/-- All `partsMap` entries from message index `i` on. -/
def partsMapFrom : Nat → List Message → List (String × Part)
  | _, [] => []
  | i, m :: rest => partsEntries i 0 m.parts ++ partsMapFrom (i + 1) rest

/-- The `partsMap` of line 288, as an insertion-ordered association
list; since all keys are distinct, first-match lookup coincides with the
JavaScript `Map`. -/
def partsMap (msgs : List Message) : List (String × Part) :=
  partsMapFrom 0 msgs

/-- `sessionResult?.data?.directory ?? ""` of line 285: the outer
`Option` is the `.catch(() => null)`, the inner one a missing `data`
payload. -/
def resolveProjectPath (res : Option (Option String)) : String :=
  match res with
  | some (some directory) => directory
  | some none => ""
  | none => ""

/-- `handleLeafSelect` of lines 360-367: on a node carrying a `partKey`
that resolves in `partsMap`, select that part; otherwise leave the
selection state unchanged. -/
def handleLeafSelect (pm : List (String × Part)) (node : TreeNode)
    (selected : Option Part) : Option Part :=
  match node.partKey with
  | some k =>
      match List.lookup k pm with
      | some p => some p
      | none => selected
  | none => selected

mutual

/-- All nodes of a tree: the node itself and, recursively, every node of
its children. -/
def subNodes : TreeNode → List TreeNode
  | .mk n v l c none k => [.mk n v l c none k]
  | .mk n v l c (some kids) k => .mk n v l c (some kids) k :: subForest kids

/-- All nodes of a forest. -/
def subForest : List TreeNode → List TreeNode
  | [] => []
  | t :: ts => subNodes t ++ subForest ts

end

mutual

/-- The sum of the `value`s of the leaves of a tree (a node with
`children` present contributes only through its descendants). -/
def leafSum : TreeNode → Nat
  | .mk _ v _ _ none _ => v
  | .mk _ _ _ _ (some kids) _ => leafSumList kids

/-- The sum of the leaf `value`s of a forest. -/
def leafSumList : List TreeNode → Nat
  | [] => 0
  | t :: ts => leafSum t + leafSumList ts

end

/-- The decimal digit characters of `n`, most significant first; proof
counterpart of the fuel-based `Nat.toDigitsCore` underlying
`Nat.toString`. -/
def digitsOf (n : Nat) : List Char :=
  if n < 10 then [Nat.digitChar n]
  else digitsOf (n / 10) ++ [Nat.digitChar (n % 10)]
termination_by n
decreasing_by omega

/-- A small concrete session used to instantiate the guarded theorems. -/
def sampleMessages : List Message :=
  [⟨⟨"user"⟩, [Part.text "hello"]⟩,
   ⟨⟨"assistant"⟩, [Part.text "hi", Part.reasoning "deep"]⟩]

/-! ### Supporting lemmas -/

/-- Indexing into the leaves of one message: the `j`-th leaf is the leaf
of the `j`-th part, with the part index offset by the starting index. -/
theorem partLeaves_getElem (cwd projectPath : String) (msgIndex : Nat) :
    ∀ (parts : List Part) (j0 j : Nat),
      (partLeaves cwd projectPath msgIndex j0 parts)[j]? =
        parts[j]?.map (fun p => partLeaf cwd projectPath msgIndex (j0 + j) p)
  | [], _, _ => by simp [partLeaves]
  | p :: rest, j0, 0 => by simp [partLeaves]
  | p :: rest, j0, j + 1 => by
      have h : j0 + 1 + j = j0 + (j + 1) := by omega
      simpa [partLeaves, h] using
        partLeaves_getElem cwd projectPath msgIndex rest (j0 + 1) j

/-- One leaf per part. -/
theorem partLeaves_length (cwd projectPath : String) (msgIndex : Nat) :
    ∀ (parts : List Part) (j0 : Nat),
      (partLeaves cwd projectPath msgIndex j0 parts).length = parts.length
  | [], _ => rfl
  | _ :: rest, j0 => by
      simp [partLeaves, partLeaves_length cwd projectPath msgIndex rest (j0 + 1)]

/-- Indexing into the message nodes, with the message index offset by
the starting index. -/
theorem messageNodesFrom_getElem (cwd projectPath : String) (total : Nat) :
    ∀ (msgs : List Message) (i0 i : Nat),
      (messageNodesFrom cwd projectPath total i0 msgs)[i]? =
        msgs[i]?.map (fun m => messageNode cwd projectPath total (i0 + i) m)
  | [], _, _ => by simp [messageNodesFrom]
  | m :: rest, i0, 0 => by simp [messageNodesFrom]
  | m :: rest, i0, i + 1 => by
      have h : i0 + 1 + i = i0 + (i + 1) := by omega
      simpa [messageNodesFrom, h] using
        messageNodesFrom_getElem cwd projectPath total rest (i0 + 1) i

/-- One node per message. -/
theorem messageNodesFrom_length (cwd projectPath : String) (total : Nat) :
    ∀ (msgs : List Message) (i0 : Nat),
      (messageNodesFrom cwd projectPath total i0 msgs).length = msgs.length
  | [], _ => rfl
  | _ :: rest, i0 => by
      simp [messageNodesFrom, messageNodesFrom_length cwd projectPath total rest (i0 + 1)]

/-- Indexing into `messageNodes`. -/
theorem messageNodes_getElem (cwd projectPath : String) (msgs : List Message) (i : Nat) :
    (messageNodes cwd projectPath msgs)[i]? =
      msgs[i]?.map (fun m => messageNode cwd projectPath msgs.length i m) := by
  simpa using messageNodesFrom_getElem cwd projectPath msgs.length msgs 0 i

/-- `Nat.toDigitsCore` with enough fuel computes `digitsOf`. -/
theorem toDigitsCore_eq (fuel : Nat) :
    ∀ n, n < fuel → ∀ ds : List Char,
      Nat.toDigitsCore 10 fuel n ds = digitsOf n ++ ds := by
  induction fuel with
  | zero => intro n h ds; omega
  | succ f ih =>
      intro n h ds
      rw [Nat.toDigitsCore]
      by_cases h10 : n / 10 = 0
      · have hn : n < 10 := by omega
        rw [if_pos h10, digitsOf, if_pos hn, Nat.mod_eq_of_lt hn]
        rfl
      · have hn : ¬ n < 10 := by omega
        rw [if_neg h10, ih (n / 10) (by omega)]
        conv_rhs => rw [digitsOf]
        rw [if_neg hn]
        simp

/-- The characters of `toString (n : Nat)` are exactly `digitsOf n`. -/
theorem toString_data_eq (n : Nat) : (toString n).data = digitsOf n := by
  show (Nat.repr n).data = digitsOf n
  rw [Nat.repr, Nat.toDigits, toDigitsCore_eq (n + 1) n (by omega)]
  simp [List.asString]

/-- Decimal digit characters are not `'-'`. -/
theorem digitChar_ne_dash : ∀ k, k < 10 → Nat.digitChar k ≠ '-' := by decide

/-- `Nat.digitChar` is injective below 10. -/
theorem digitChar_inj :
    ∀ a, a < 10 → ∀ b, b < 10 → Nat.digitChar a = Nat.digitChar b → a = b := by
  decide

/-- No `'-'` occurs among the digits of a natural number. -/
theorem digitsOf_ne_dash (n : Nat) : ∀ c ∈ digitsOf n, c ≠ '-' := by
  induction n using Nat.strong_induction_on with
  | _ n ih =>
      rw [digitsOf]
      by_cases h : n < 10
      · rw [if_pos h]
        intro c hc
        simp at hc
        exact hc ▸ digitChar_ne_dash n h
      · rw [if_neg h]
        intro c hc
        rcases List.mem_append.mp hc with h1 | h2
        · exact ih (n / 10) (by omega) c h1
        · simp at h2
          exact h2 ▸ digitChar_ne_dash (n % 10) (by omega)

/-- A digit string is never empty. -/
theorem digitsOf_ne_nil (n : Nat) : digitsOf n ≠ [] := by
  rw [digitsOf]
  by_cases h : n < 10 <;> simp [h]

/-- Digit strings determine their number. -/
theorem digitsOf_inj : ∀ a b : Nat, digitsOf a = digitsOf b → a = b := by
  intro a
  induction a using Nat.strong_induction_on with
  | _ a ih =>
      intro b hab
      by_cases ha : a < 10 <;> by_cases hb : b < 10
      · rw [digitsOf, if_pos ha] at hab
        conv at hab => rhs; rw [digitsOf]
        rw [if_pos hb] at hab
        simp at hab
        exact digitChar_inj a ha b hb hab
      · exfalso
        have h1 := congrArg List.length hab
        rw [digitsOf, if_pos ha] at h1
        conv at h1 => rhs; rw [digitsOf]
        rw [if_neg hb] at h1
        simp only [List.length_append, List.length_singleton] at h1
        exact digitsOf_ne_nil (b / 10) (List.eq_nil_of_length_eq_zero (by omega))
      · exfalso
        have h1 := congrArg List.length hab
        rw [digitsOf, if_neg ha] at h1
        conv at h1 => rhs; rw [digitsOf]
        rw [if_pos hb] at h1
        simp only [List.length_append, List.length_singleton] at h1
        exact digitsOf_ne_nil (a / 10) (List.eq_nil_of_length_eq_zero (by omega))
      · rw [digitsOf, if_neg ha] at hab
        conv at hab => rhs; rw [digitsOf]
        rw [if_neg hb] at hab
        obtain ⟨h1, h2⟩ := List.append_inj' hab (by simp)
        simp at h2
        have hm : a % 10 = b % 10 := digitChar_inj _ (by omega) _ (by omega) h2
        have hd : a / 10 = b / 10 := ih (a / 10) (by omega) (b / 10) h1
        omega

/-- `toString` on naturals is injective. -/
theorem toString_nat_inj (a b : Nat) (h : toString a = toString b) : a = b := by
  apply digitsOf_inj
  rw [← toString_data_eq, ← toString_data_eq, h]

/-- `toString (n : Nat)` contains no `'-'`. -/
theorem toString_nat_ne_dash (n : Nat) : ∀ c ∈ (toString n).data, c ≠ '-' := by
  rw [toString_data_eq]
  exact digitsOf_ne_dash n

/-- Splitting at a `'-'` separator is unambiguous when neither prefix
contains `'-'`. -/
theorem dash_split_inj :
    ∀ (A : List Char) (B : List Char) (C : List Char) (D : List Char),
      (∀ c ∈ A, c ≠ '-') → (∀ c ∈ C, c ≠ '-') →
      A ++ '-' :: B = C ++ '-' :: D → A = C ∧ B = D
  | [], B, [], D, _, _, h => by simp at h; simp [h]
  | [], B, c :: C, D, _, hC, h => by
      simp at h
      exact absurd h.1.symm (hC c (by simp))
  | a :: A, B, [], D, hA, _, h => by
      simp at h
      exact absurd h.1 (hA a (by simp))
  | a :: A, B, c :: C, D, hA, hC, h => by
      simp at h
      obtain ⟨h1, h2⟩ := h
      obtain ⟨h3, h4⟩ := dash_split_inj A B C D (fun x hx => hA x (by simp [hx]))
        (fun x hx => hC x (by simp [hx])) h2
      exact ⟨by simp [h1, h3], h4⟩

/-- The leaf keys `` `${msgIndex}-${partIndex}` `` of distinct
(message, part) positions are distinct. -/
theorem partKeyString_inj (i j i' j' : Nat)
    (h : partKeyString i j = partKeyString i' j') : i = i' ∧ j = j' := by
  have hd := congrArg String.data h
  simp only [partKeyString, String.data_append] at hd
  rw [List.append_assoc, List.append_assoc] at hd
  obtain ⟨h1, h2⟩ := dash_split_inj _ _ _ _ (toString_nat_ne_dash i)
    (toString_nat_ne_dash i') hd
  exact ⟨toString_nat_inj i i' (String.ext h1), toString_nat_inj j j' (String.ext h2)⟩

/-- First-match association lookup distributes over append. -/
theorem lookup_append (k : String) :
    ∀ xs ys : List (String × Part),
      List.lookup k (xs ++ ys) =
        match List.lookup k xs with
        | some v => some v
        | none => List.lookup k ys
  | [], ys => rfl
  | (k', v) :: xs, ys => by
      simp only [List.cons_append, List.lookup]
      cases h : (k == k') with
      | true => simp
      | false => simp [lookup_append k xs ys]

/-- Keys of a different message index never hit a message's entries. -/
theorem lookup_partsEntries_ne (mi : Nat) :
    ∀ (parts : List Part) (j0 i j : Nat), i ≠ mi →
      List.lookup (partKeyString i j) (partsEntries mi j0 parts) = none
  | [], _, _, _, _ => rfl
  | p :: rest, j0, i, j, h => by
      have hne : (partKeyString i j == partKeyString mi j0) = false := by
        rw [beq_eq_false_iff_ne]
        intro hk
        exact h (partKeyString_inj i j mi j0 hk).1
      simp only [partsEntries, List.lookup, hne]
      exact lookup_partsEntries_ne mi rest (j0 + 1) i j h

/-- The key of the `j`-th part hits exactly its own entry. -/
theorem lookup_partsEntries_same (mi : Nat) :
    ∀ (parts : List Part) (j0 j : Nat) (p : Part), parts[j]? = some p →
      List.lookup (partKeyString mi (j0 + j)) (partsEntries mi j0 parts) = some p
  | [], _, j, p, h => by simp at h
  | q :: rest, j0, 0, p, h => by
      simp at h
      simp [partsEntries, List.lookup, h]
  | q :: rest, j0, j + 1, p, h => by
      simp at h
      have hne : (partKeyString mi (j0 + (j + 1)) == partKeyString mi j0) = false := by
        rw [beq_eq_false_iff_ne]
        intro hk
        have h2 := (partKeyString_inj _ _ _ _ hk).2
        omega
      simp only [partsEntries, List.lookup, hne]
      have h2 := lookup_partsEntries_same mi rest (j0 + 1) j p h
      have h3 : j0 + 1 + j = j0 + (j + 1) := by omega
      rwa [h3] at h2

/-- Looking the key of position `(i0 + i, j)` up in the map built from
message index `i0` on yields exactly the part at that position. -/
theorem lookup_partsMapFrom :
    ∀ (msgs : List Message) (i0 i : Nat) (m : Message) (j : Nat) (p : Part),
      msgs[i]? = some m → m.parts[j]? = some p →
      List.lookup (partKeyString (i0 + i) j) (partsMapFrom i0 msgs) = some p
  | [], _, i, _, _, _, hm, _ => by simp at hm
  | m0 :: rest, i0, 0, m, j, p, hm, hp => by
      simp at hm
      subst hm
      simp only [Nat.add_zero]
      rw [partsMapFrom, lookup_append]
      have h1 := lookup_partsEntries_same i0 m0.parts 0 j p hp
      simp only [Nat.zero_add] at h1
      rw [h1]
  | m0 :: rest, i0, i + 1, m, j, p, hm, hp => by
      simp at hm
      rw [partsMapFrom, lookup_append,
        lookup_partsEntries_ne i0 m0.parts 0 (i0 + (i + 1)) j (by omega)]
      have h2 := lookup_partsMapFrom rest (i0 + 1) i m j p hm hp
      have h3 : i0 + 1 + i = i0 + (i + 1) := by omega
      rwa [h3] at h2

/-- Looking a leaf's key up in `partsMap` yields its originating part. -/
theorem lookup_partsMap (msgs : List Message) (i : Nat) (m : Message) (j : Nat)
    (p : Part) (hm : msgs[i]? = some m) (hp : m.parts[j]? = some p) :
    List.lookup (partKeyString i j) (partsMap msgs) = some p := by
  have h := lookup_partsMapFrom msgs 0 i m j p hm hp
  simpa using h

/-- A part leaf has no children, so its node list is itself. -/
theorem subNodes_partLeaf (cwd projectPath : String) (i j : Nat) (p : Part) :
    subNodes (partLeaf cwd projectPath i j p) = [partLeaf cwd projectPath i j p] := by
  simp [partLeaf, subNodes]

/-- A forest of part leaves contributes exactly those leaves. -/
theorem subForest_partLeaves (cwd projectPath : String) (mi : Nat) :
    ∀ (parts : List Part) (j0 : Nat),
      subForest (partLeaves cwd projectPath mi j0 parts) =
        partLeaves cwd projectPath mi j0 parts
  | [], _ => by simp [partLeaves, subForest]
  | q :: rest, j0 => by
      rw [partLeaves, subForest, subNodes_partLeaf,
        subForest_partLeaves cwd projectPath mi rest (j0 + 1)]
      rfl

/-- Membership in a message's leaf list characterized by part position. -/
theorem mem_partLeaves (cwd projectPath : String) (mi : Nat) :
    ∀ (parts : List Part) (j0 : Nat) (x : TreeNode),
      x ∈ partLeaves cwd projectPath mi j0 parts ↔
        ∃ j p, parts[j]? = some p ∧ x = partLeaf cwd projectPath mi (j0 + j) p
  | [], j0, x => by simp [partLeaves]
  | q :: rest, j0, x => by
      rw [partLeaves, List.mem_cons]
      constructor
      · rintro (rfl | h2)
        · exact ⟨0, q, by simp, by rw [Nat.add_zero]⟩
        · obtain ⟨j, p, hj, hx⟩ :=
            (mem_partLeaves cwd projectPath mi rest (j0 + 1) x).mp h2
          refine ⟨j + 1, p, by simpa using hj, ?_⟩
          rw [hx]
          have h3 : j0 + 1 + j = j0 + (j + 1) := by omega
          rw [h3]
      · rintro ⟨j, p, hj, rfl⟩
        cases j with
        | zero =>
            simp at hj
            subst hj
            left
            rw [Nat.add_zero]
        | succ j' =>
            simp at hj
            right
            apply (mem_partLeaves cwd projectPath mi rest (j0 + 1) _).mpr
            refine ⟨j', p, hj, ?_⟩
            have h3 : j0 + 1 + j' = j0 + (j' + 1) := by omega
            rw [h3]

/-- A message node's node list is itself followed by its leaves. -/
theorem subNodes_messageNode (cwd projectPath : String) (total i : Nat) (m : Message) :
    subNodes (messageNode cwd projectPath total i m) =
      messageNode cwd projectPath total i m ::
        subForest (partLeaves cwd projectPath i 0 m.parts) := by
  simp [messageNode, subNodes]

/-- Membership in the forest under the message nodes, characterized by
message/part positions. -/
theorem mem_subForest_messageNodesFrom (cwd projectPath : String) (total : Nat) :
    ∀ (msgs : List Message) (i0 : Nat) (x : TreeNode),
      x ∈ subForest (messageNodesFrom cwd projectPath total i0 msgs) ↔
        (∃ i m, msgs[i]? = some m ∧
            x = messageNode cwd projectPath total (i0 + i) m)
        ∨ (∃ i m j p, msgs[i]? = some m ∧ m.parts[j]? = some p ∧
            x = partLeaf cwd projectPath (i0 + i) j p)
  | [], i0, x => by simp [messageNodesFrom, subForest]
  | m0 :: rest, i0, x => by
      rw [messageNodesFrom, subForest, subNodes_messageNode, subForest_partLeaves]
      constructor
      · intro hx
        rcases List.mem_append.mp hx with h1 | h2
        · rcases List.mem_cons.mp h1 with rfl | h1'
          · exact Or.inl ⟨0, m0, by simp, by rw [Nat.add_zero]⟩
          · obtain ⟨j, p, hj, hx'⟩ :=
              (mem_partLeaves cwd projectPath i0 m0.parts 0 x).mp h1'
            refine Or.inr ⟨0, m0, j, p, by simp, hj, ?_⟩
            rw [hx']
            simp
        · rcases (mem_subForest_messageNodesFrom cwd projectPath total rest
              (i0 + 1) x).mp h2 with ⟨i, m, hi, hx'⟩ | ⟨i, m, j, p, hi, hj, hx'⟩
          · refine Or.inl ⟨i + 1, m, by simpa using hi, ?_⟩
            rw [hx']
            have h3 : i0 + 1 + i = i0 + (i + 1) := by omega
            rw [h3]
          · refine Or.inr ⟨i + 1, m, j, p, by simpa using hi, hj, ?_⟩
            rw [hx']
            have h3 : i0 + 1 + i = i0 + (i + 1) := by omega
            rw [h3]
      · intro hx
        rcases hx with ⟨i, m, hi, rfl⟩ | ⟨i, m, j, p, hi, hj, rfl⟩
        · cases i with
          | zero =>
              simp at hi
              subst hi
              apply List.mem_append.mpr
              left
              apply List.mem_cons.mpr
              left
              rw [Nat.add_zero]
          | succ i' =>
              simp at hi
              apply List.mem_append.mpr
              right
              apply (mem_subForest_messageNodesFrom cwd projectPath total rest
                (i0 + 1) _).mpr
              refine Or.inl ⟨i', m, hi, ?_⟩
              have h3 : i0 + 1 + i' = i0 + (i' + 1) := by omega
              rw [h3]
        · cases i with
          | zero =>
              simp at hi
              subst hi
              apply List.mem_append.mpr
              left
              apply List.mem_cons.mpr
              right
              apply (mem_partLeaves cwd projectPath i0 m0.parts 0 _).mpr
              refine ⟨j, p, hj, ?_⟩
              simp
          | succ i' =>
              simp at hi
              apply List.mem_append.mpr
              right
              apply (mem_subForest_messageNodesFrom cwd projectPath total rest
                (i0 + 1) _).mpr
              refine Or.inr ⟨i', m, j, p, hi, hj, ?_⟩
              have h3 : i0 + 1 + i' = i0 + (i' + 1) := by omega
              rw [h3]

/-- The nodes of the built tree are the root, the message nodes and the
part leaves, characterized by position. -/
theorem mem_subNodes_rootNode (cwd projectPath : String) (msgs : List Message)
    (x : TreeNode) :
    x ∈ subNodes (rootNode cwd projectPath msgs) ↔
      x = rootNode cwd projectPath msgs
      ∨ (∃ i m, msgs[i]? = some m ∧
          x = messageNode cwd projectPath msgs.length i m)
      ∨ (∃ i m j p, msgs[i]? = some m ∧ m.parts[j]? = some p ∧
          x = partLeaf cwd projectPath i j p) := by
  have h : subNodes (rootNode cwd projectPath msgs) =
      rootNode cwd projectPath msgs ::
        subForest (messageNodes cwd projectPath msgs) := by
    simp [rootNode, subNodes]
  rw [h, List.mem_cons, messageNodes,
    mem_subForest_messageNodesFrom cwd projectPath msgs.length msgs 0 x]
  simp only [Nat.zero_add]

/-- String append is list append of the character data. -/
theorem mk_append (a b : List Char) : String.mk a ++ String.mk b = String.mk (a ++ b) :=
  rfl

/-- Splitting always yields at least one piece. -/
theorem splitSlashAux_ne_nil : ∀ (cs acc : List Char), splitSlashAux cs acc ≠ []
  | [], acc => by simp [splitSlashAux]
  | c :: cs, acc => by
      rw [splitSlashAux]
      by_cases h : c = '/'
      · simp [h]
      · simpa [h] using splitSlashAux_ne_nil cs (c :: acc)

/-- Unfolding `joinSegs` on a list with at least two segments. -/
theorem joinSegs_cons_cons (s r : String) (rest : List String) :
    joinSegs (s :: r :: rest) = s ++ "/" ++ joinSegs (r :: rest) := rfl

/-- Joining what splitting produced restores the original characters. -/
theorem joinSegs_splitSlashAux : ∀ (cs acc : List Char),
    joinSegs ((splitSlashAux cs acc).map (fun l => String.mk l)) =
      String.mk (acc.reverse ++ cs)
  | [], acc => by simp [splitSlashAux, joinSegs]
  | c :: cs, acc => by
      rw [splitSlashAux]
      by_cases h : c = '/'
      · subst h
        rw [if_pos rfl]
        obtain ⟨y, ys, hys⟩ := List.exists_cons_of_ne_nil (splitSlashAux_ne_nil cs [])
        have hrec := joinSegs_splitSlashAux cs []
        rw [hys] at hrec
        simp only [List.reverse_nil, List.nil_append] at hrec
        rw [hys]
        simp only [List.map_cons]
        rw [joinSegs_cons_cons]
        simp only [List.map_cons] at hrec
        rw [hrec]
        rw [show ("/" : String) = String.mk ['/'] from rfl, mk_append, mk_append]
        simp
      · rw [if_neg h]
        rw [joinSegs_splitSlashAux cs (c :: acc)]
        simp

/-- `joinSegs` is a left inverse of `splitSlash`. -/
theorem joinSegs_splitSlash (p : String) : joinSegs (splitSlash p) = p := by
  have h := joinSegs_splitSlashAux p.data []
  simpa [splitSlash] using h

/-- Folding the normalization step over traversal-free segments only
appends them. -/
theorem foldl_norm_nodots : ∀ (B acc : List String), (∀ seg ∈ B, seg ≠ "..") →
    List.foldl (fun acc seg => if seg = ".." then acc.dropLast else acc ++ [seg])
      acc B = acc ++ B
  | [], acc, _ => by simp
  | b :: B, acc, h => by
      simp only [List.foldl_cons]
      rw [if_neg (h b (by simp)),
        foldl_norm_nodots B (acc ++ [b]) (fun s hs => h s (by simp [hs]))]
      simp

/-- Normalization distributes over an append whose tail is
traversal-free. -/
theorem normSegs_append_nodots (A B : List String) (h : ∀ seg ∈ B, seg ≠ "..") :
    normSegs (A ++ B) = normSegs A ++ B := by
  simp only [normSegs]
  rw [List.foldl_append]
  exact foldl_norm_nodots B _ h

/-- Dropping the common prefix of `X` and `X ++ B` leaves exactly `B`. -/
theorem dropCommon_append : ∀ (X B : List String), dropCommon X (X ++ B) = ([], B)
  | [], B => by cases B <;> rfl
  | x :: X, B => by simp [dropCommon, dropCommon_append X B]

/-- The empty path has no segments. -/
theorem pathSegs_empty : pathSegs "" = [] := rfl

/-- A path whose raw pieces are all plain keeps them all. -/
theorem pathSegs_eq_splitSlash (p : String)
    (h : ∀ seg ∈ splitSlash p, seg ≠ "" ∧ seg ≠ "." ∧ seg ≠ "..") :
    pathSegs p = splitSlash p := by
  rw [pathSegs]
  apply List.filter_eq_self.mpr
  intro seg hs
  have h2 := h seg hs
  simp [h2.1, h2.2.1]

/-- A path whose raw pieces are all non-empty cannot be absolute. -/
theorem isAbsolute_false_of_good (p : String)
    (h : ∀ seg ∈ splitSlash p, seg ≠ "" ∧ seg ≠ "." ∧ seg ≠ "..") :
    isAbsolute p = false := by
  cases hd : p.data with
  | nil => simp [isAbsolute, hd]
  | cons c cs =>
      by_cases hc : c = '/'
      · exfalso
        have hmem : "" ∈ splitSlash p := by
          rw [splitSlash, hd, hc, splitSlashAux, if_pos rfl]
          simp
        exact (h "" hmem).1 rfl
      · simp [isAbsolute, hd, hc]

/-- With an empty root, `path.relative` resolves both sides against the
working directory; a relative, normalized path is returned unchanged. -/
theorem posixRelative_empty_root (cwd p : String)
    (h : ∀ seg ∈ splitSlash p, seg ≠ "" ∧ seg ≠ "." ∧ seg ≠ "..") :
    posixRelative cwd "" p = p := by
  have habs : isAbsolute p = false := isAbsolute_false_of_good p h
  have hsegs : pathSegs p = splitSlash p := pathSegs_eq_splitSlash p h
  have h1 : posixResolve cwd "" = normSegs (pathSegs cwd) := by
    rw [posixResolve]
    simp [show isAbsolute "" = false from rfl, pathSegs_empty]
  have h2 : posixResolve cwd p = normSegs (pathSegs cwd) ++ splitSlash p := by
    rw [posixResolve, if_neg (by simp [habs]), hsegs,
      normSegs_append_nodots _ _ (fun s hs => (h s hs).2.2)]
  simp only [posixRelative]
  rw [h1, h2, dropCommon_append]
  simp [joinSegs_splitSlash p]

/-- With enough fuel, `natLog2Aux` is a lower binary logarithm. -/
theorem natLog2Aux_le : ∀ (f n : Nat), n ≠ 0 → n ≤ f → 2 ^ natLog2Aux f n ≤ n
  | 0, n, h0, hf => by omega
  | f + 1, n, h0, hf => by
      rw [natLog2Aux]
      by_cases h2 : 2 ≤ n
      · rw [if_pos h2]
        have hrec := natLog2Aux_le f (n / 2) (by omega) (by omega)
        rw [pow_succ]
        omega
      · rw [if_neg h2]
        simp
        omega

/-- With enough fuel, `natLog2Aux` is an upper binary logarithm. -/
theorem natLog2Aux_lt : ∀ (f n : Nat), n ≤ f → n < 2 ^ (natLog2Aux f n + 1)
  | 0, n, hf => by
      rw [natLog2Aux]
      simp
      omega
  | f + 1, n, hf => by
      rw [natLog2Aux]
      by_cases h2 : 2 ≤ n
      · rw [if_pos h2]
        have hrec := natLog2Aux_lt f (n / 2) (by omega)
        rw [pow_succ, pow_succ]
        rw [pow_succ] at hrec
        omega
      · rw [if_neg h2]
        simp
        omega

/-- `2 ^ natLog2 n` is below `n` for positive `n`. -/
theorem pow_natLog2_le (n : Nat) (h : n ≠ 0) : 2 ^ natLog2 n ≤ n :=
  natLog2Aux_le n n h le_rfl

/-- `n` is below `2 ^ (natLog2 n + 1)`. -/
theorem lt_pow_natLog2 (n : Nat) : n < 2 ^ (natLog2 n + 1) :=
  natLog2Aux_lt n n le_rfl

/-- `natLog2` reflects strict bounds by powers of two. -/
theorem natLog2_lt_of_lt_pow (n m : Nat) (h0 : n ≠ 0) (h : n < 2 ^ m) :
    natLog2 n < m := by
  by_contra hc
  push_neg at hc
  have h1 := pow_natLog2_le n h0
  have h2 : 2 ^ m ≤ 2 ^ natLog2 n := Nat.pow_le_pow_right (by omega) hc
  omega

/-- Round-to-nearest lands within half a unit: `2 * b * round` is
within `b` of `2 * a`. -/
theorem roundHalfEvenNat_bounds (a b : Nat) (hb : 0 < b) :
    2 * a ≤ 2 * (b * roundHalfEvenNat a b) + b ∧
    2 * (b * roundHalfEvenNat a b) ≤ 2 * a + b := by
  have hdm := Nat.div_add_mod a b
  have hlt : a % b < b := Nat.mod_lt a hb
  unfold roundHalfEvenNat
  split_ifs with h1 h2 h3
  all_goals (try simp only [Nat.mul_succ])
  all_goals (set X := b * (a / b); set R := a % b; omega)

/-- Rounding to nearest never falls below the floor. -/
theorem roundHalfEvenNat_ge (a b : Nat) : a / b ≤ roundHalfEvenNat a b := by
  unfold roundHalfEvenNat
  split_ifs <;> omega

/-- Rational form of the rounding error: at most one half. -/
theorem roundHalfEvenNat_err_q (a b : Nat) (hb : 0 < b) :
    |(roundHalfEvenNat a b : ℚ) - (a : ℚ) / (b : ℚ)| ≤ 1 / 2 := by
  obtain ⟨hlo, hhi⟩ := roundHalfEvenNat_bounds a b hb
  have hbq : (0 : ℚ) < (b : ℚ) := by exact_mod_cast hb
  have hloq : (2 * a : ℚ) ≤ 2 * ((b : ℚ) * (roundHalfEvenNat a b : ℚ)) + b := by
    exact_mod_cast hlo
  have hhiq : 2 * ((b : ℚ) * (roundHalfEvenNat a b : ℚ)) ≤ (2 * a : ℚ) + b := by
    exact_mod_cast hhi
  rw [abs_le]
  constructor
  · rw [neg_le, neg_sub, sub_le_iff_le_add, div_le_iff₀ hbq]
    nlinarith [hloq]
  · rw [sub_le_iff_le_add]
    rw [show (1 : ℚ) / 2 + (a : ℚ) / b = (b / 2 + a) / b from by field_simp]
    rw [le_div_iff₀ hbq]
    nlinarith [hhiq]

/-- The `toFixed(1)` digit count is within half a tenth of ten times
the double's value. -/
theorem jsToFixed1Tenths_err (mant sc : Nat) :
    |(jsToFixed1Tenths mant sc : ℚ) - 10 * (mant : ℚ) / 2 ^ sc| ≤ 1 / 2 := by
  rw [jsToFixed1Tenths]
  set X : Nat := 20 * mant + 2 ^ sc with hXdef
  set Y : Nat := 2 ^ (sc + 1) with hYdef
  have hY : 0 < Y := Nat.pos_pow_of_pos _ (by norm_num)
  have hdm := Nat.div_add_mod X Y
  have hmod : X % Y < Y := Nat.mod_lt _ hY
  have hYq : (0 : ℚ) < (Y : ℚ) := by exact_mod_cast hY
  have h2sq : (0 : ℚ) < (2 : ℚ) ^ sc := by positivity
  -- the rational value of X / Y is exactly 10 * mant / 2^sc + 1/2
  have hXY : (X : ℚ) = ((10 * (mant : ℚ) / 2 ^ sc) + 1 / 2) * (Y : ℚ) := by
    rw [hXdef, hYdef]
    push_cast
    rw [pow_succ]
    field_simp
    ring
  have h1 : ((X / Y : ℕ) : ℚ) * Y ≤ X := by
    have h0 := Nat.div_mul_le_self X Y
    exact_mod_cast h0
  have h2 : (X : ℚ) < ((X / Y : ℕ) : ℚ) * Y + Y := by
    have h0 : X < Y * (X / Y) + Y := by
      set A := Y * (X / Y)
      omega
    calc (X : ℚ) < ((Y * (X / Y) + Y : ℕ) : ℚ) := by exact_mod_cast h0
      _ = ((X / Y : ℕ) : ℚ) * Y + Y := by push_cast; ring
  rw [abs_le]
  constructor
  · nlinarith [h2, hXY, hYq]
  · nlinarith [h1, hXY, hYq]

/-- The binary64 value of `a / b` is within half an ulp,
`1 / 2 ^ (flScale a b + 1)`, of the exact quotient. -/
theorem flMant_err_q (a b : Nat) (hb : 0 < b) :
    |(flMant a b : ℚ) / 2 ^ flScale a b - (a : ℚ) / b| ≤ 1 / 2 ^ (flScale a b + 1) := by
  have h := roundHalfEvenNat_err_q (a * 2 ^ flScale a b) b hb
  set s := flScale a b
  have h2s : (0 : ℚ) < (2 : ℚ) ^ s := by positivity
  have hbq : (0 : ℚ) < (b : ℚ) := by exact_mod_cast hb
  have key : (flMant a b : ℚ) / 2 ^ s - (a : ℚ) / b =
      ((roundHalfEvenNat (a * 2 ^ s) b : ℚ) - ((a * 2 ^ s : ℕ) : ℚ) / b) / 2 ^ s := by
    rw [flMant]
    push_cast
    field_simp
    ring
  rw [key, abs_div, abs_of_pos h2s]
  rw [show (1 : ℚ) / 2 ^ (s + 1) = (1 / 2) / 2 ^ s from by rw [pow_succ]; ring]
  exact (div_le_div_iff_of_pos_right h2s).mpr h

/-- For `1000 ≤ n < 10^6` the binary64 quotient `n / 1000` stays below
1000, so the `K` branch is taken. -/
theorem flMant_lt_of_lt (n : Nat) (h1 : 1000 ≤ n) (h2 : n < 1000000) :
    flMant n 1000 < 1000 * 2 ^ flScale n 1000 := by
  have hL : natLog2 (n / 1000) < 10 :=
    natLog2_lt_of_lt_pow (n / 1000) 10 (by omega) (by norm_num; omega)
  have hs : 43 ≤ flScale n 1000 := by rw [flScale]; omega
  obtain ⟨-, hhi⟩ := roundHalfEvenNat_bounds (n * 2 ^ flScale n 1000) 1000 (by norm_num)
  rw [flMant]
  set s := flScale n 1000
  have hp : 2 ^ 43 ≤ 2 ^ s := Nat.pow_le_pow_right (by norm_num) hs
  have hlit : (2 : ℕ) ^ 43 = 8796093022208 := by norm_num
  have ha : n * 2 ^ s ≤ 999999 * 2 ^ s := Nat.mul_le_mul_right _ (by omega)
  set P := 2 ^ s
  set A := n * P
  set K := roundHalfEvenNat A 1000
  omega

/-- For `10^6 ≤ n` the binary64 quotient `n / 1000` is at least 1000,
so the `M` branch is taken. -/
theorem le_flMant_of_le (n : Nat) (h1 : 1000000 ≤ n) :
    1000 * 2 ^ flScale n 1000 ≤ flMant n 1000 := by
  rw [flMant]
  set s := flScale n 1000
  calc 1000 * 2 ^ s = 1000000 * 2 ^ s / 1000 := by
        rw [show (1000000 : ℕ) * 2 ^ s = 1000 * (1000 * 2 ^ s) from by ring,
          Nat.mul_div_cancel_left _ (by norm_num)]
    _ ≤ n * 2 ^ s / 1000 := Nat.div_le_div_right (Nat.mul_le_mul_right _ h1)
    _ ≤ roundHalfEvenNat (n * 2 ^ s) 1000 := roundHalfEvenNat_ge _ _

/-- The `K` branch: sizes in `[1000, 10^6)` render as a one-decimal
count of tenths of `n / 1000`, accurate to `51 / 100` of a tenth. -/
theorem formatCharSize_K (n : Nat) (h1 : 1000 ≤ n) (h2 : n < 1000000) :
    ∃ t : Nat, formatCharSize n = toFixed1 t ++ "K chars" ∧
      |(t : ℚ) - (n : ℚ) / 100| ≤ 51 / 100 := by
  have hbr := flMant_lt_of_lt n h1 h2
  refine ⟨jsToFixed1Tenths (flMant n 1000) (flScale n 1000), ?_, ?_⟩
  · simp only [formatCharSize]
    rw [if_neg (by omega : ¬ n < 1000), if_pos hbr]
  · have e1 := jsToFixed1Tenths_err (flMant n 1000) (flScale n 1000)
    have e2 := flMant_err_q n 1000 (by norm_num)
    set s := flScale n 1000 with hsdef
    set km := flMant n 1000 with hkmdef
    set t := jsToFixed1Tenths km s with htdef
    have hL : natLog2 (n / 1000) < 10 :=
      natLog2_lt_of_lt_pow (n / 1000) 10 (by omega) (by norm_num; omega)
    have hs : 43 ≤ s := by rw [hsdef, flScale]; omega
    have key : (t : ℚ) - (n : ℚ) / 100 =
        ((t : ℚ) - 10 * km / 2 ^ s) +
          10 * ((km : ℚ) / 2 ^ s - (n : ℚ) / 1000) := by ring
    have h10 : |(10:ℚ) * ((km : ℚ) / 2 ^ s - (n : ℚ) / 1000)| =
        10 * |(km : ℚ) / 2 ^ s - (n : ℚ) / 1000| := by
      rw [abs_mul]
      norm_num
    have habs : |(t : ℚ) - (n : ℚ) / 100| ≤ 1 / 2 + 10 * (1 / 2 ^ (s + 1)) := by
      rw [key]
      calc |((t : ℚ) - 10 * km / 2 ^ s) + 10 * ((km : ℚ) / 2 ^ s - (n : ℚ) / 1000)|
          ≤ |(t : ℚ) - 10 * km / 2 ^ s| +
              |(10:ℚ) * ((km : ℚ) / 2 ^ s - (n : ℚ) / 1000)| := abs_add _ _
        _ ≤ 1 / 2 + 10 * (1 / 2 ^ (s + 1)) := by
            rw [h10]
            have h3 := mul_le_mul_of_nonneg_left e2 (by norm_num : (0:ℚ) ≤ 10)
            linarith [e1]
    have hpow : (2:ℚ) ^ 44 ≤ 2 ^ (s + 1) := by
      apply pow_le_pow_right₀ (by norm_num) (by omega)
    have hsmall : 10 * ((1:ℚ) / 2 ^ (s + 1)) ≤ 1 / 100 := by
      have h4 : (1:ℚ) / 2 ^ (s + 1) ≤ 1 / 2 ^ 44 :=
        one_div_le_one_div_of_le (by positivity) hpow
      have h5 : (10:ℚ) * (1 / 2 ^ 44) ≤ 1 / 100 := by norm_num
      nlinarith [h4]
    linarith [habs, hsmall]

/-- The `M` branch: sizes in `[10^6, 2^53)` render as a one-decimal
count of tenths of `n / 10^6`, accurate to `51 / 100` of a tenth. -/
theorem formatCharSize_M (n : Nat) (h1 : 1000000 ≤ n) (h2 : n < 2 ^ 53) :
    ∃ t : Nat, formatCharSize n = toFixed1 t ++ "M chars" ∧
      |(t : ℚ) - (n : ℚ) / 100000| ≤ 51 / 100 := by
  have hbr : ¬ flMant n 1000 < 1000 * 2 ^ flScale n 1000 :=
    not_lt.mpr (le_flMant_of_le n h1)
  refine ⟨jsToFixed1Tenths (flMant (flMant n 1000) (1000 * 2 ^ flScale n 1000))
      (flScale (flMant n 1000) (1000 * 2 ^ flScale n 1000)), ?_, ?_⟩
  · simp only [formatCharSize]
    rw [if_neg (by omega : ¬ n < 1000), if_neg hbr]
  · set s := flScale n 1000 with hsdef
    set km := flMant n 1000 with hkmdef
    set b2 := 1000 * 2 ^ s with hb2def
    set m2 := flMant km b2 with hm2def
    set s2 := flScale km b2 with hs2def
    set t := jsToFixed1Tenths m2 s2 with htdef
    have hP : 0 < 2 ^ s := Nat.pos_pow_of_pos _ (by norm_num)
    have hb2 : 0 < b2 := by rw [hb2def]; positivity
    -- upper bound on km: km < 2 ^ 34 * b2
    have hkm_ub : km < 2 ^ 34 * b2 := by
      obtain ⟨-, hhi⟩ := roundHalfEvenNat_bounds (n * 2 ^ s) 1000 (by norm_num)
      rw [hkmdef, flMant, ← hsdef, hb2def]
      have ha : n * 2 ^ s ≤ (2 ^ 53 - 1) * 2 ^ s := Nat.mul_le_mul_right _ (by omega)
      have hkm2 : roundHalfEvenNat (n * 2 ^ s) 1000 = km := by rw [hkmdef, flMant, ← hsdef]
      rw [hkm2] at hhi
      have hlit : (2:ℕ) ^ 53 - 1 = 9007199254740991 := by norm_num
      have hlit2 : (2:ℕ) ^ 34 = 17179869184 := by norm_num
      set P := 2 ^ s
      set A := n * P
      set K := km
      nlinarith [hhi, ha, hP]
    have hkm_lb : b2 ≤ km := not_lt.mp hbr
    have hq0 : km / b2 ≠ 0 := by
      have := Nat.one_le_div_iff hb2 |>.mpr hkm_lb
      omega
    have hL2 : natLog2 (km / b2) < 34 :=
      natLog2_lt_of_lt_pow _ 34 hq0 ((Nat.div_lt_iff_lt_mul hb2).mpr hkm_ub)
    have hs2 : 19 ≤ s2 := by rw [hs2def, flScale]; omega
    have e1 := jsToFixed1Tenths_err m2 s2
    have e2 := flMant_err_q km b2 hb2
    have e3 := flMant_err_q n 1000 (by norm_num)
    rw [← hm2def, ← hs2def] at e2
    rw [← hkmdef, ← hsdef] at e3
    have hb2q : (b2 : ℚ) = 1000 * 2 ^ s := by rw [hb2def]; push_cast; ring
    have key : (t : ℚ) - (n : ℚ) / 100000 =
        ((t : ℚ) - 10 * m2 / 2 ^ s2) +
          10 * ((m2 : ℚ) / 2 ^ s2 - (km : ℚ) / b2) +
          (1 / 100) * ((km : ℚ) / 2 ^ s - (n : ℚ) / 1000) := by
      rw [hb2q]
      have h2s : ((2 : ℚ) ^ s) ≠ 0 := by positivity
      field_simp
      ring
    have h10 : |(10:ℚ) * ((m2 : ℚ) / 2 ^ s2 - (km : ℚ) / b2)| =
        10 * |(m2 : ℚ) / 2 ^ s2 - (km : ℚ) / b2| := by
      rw [abs_mul]; norm_num
    have h100 : |(1 / 100 : ℚ) * ((km : ℚ) / 2 ^ s - (n : ℚ) / 1000)| =
        (1 / 100) * |(km : ℚ) / 2 ^ s - (n : ℚ) / 1000| := by
      rw [abs_mul]; norm_num
    have habs : |(t : ℚ) - (n : ℚ) / 100000| ≤
        1 / 2 + 10 * (1 / 2 ^ (s2 + 1)) + (1 / 100) * (1 / 2 ^ (s + 1)) := by
      rw [key]
      calc |((t : ℚ) - 10 * m2 / 2 ^ s2) + 10 * ((m2 : ℚ) / 2 ^ s2 - (km : ℚ) / b2) +
            (1 / 100) * ((km : ℚ) / 2 ^ s - (n : ℚ) / 1000)|
          ≤ |((t : ℚ) - 10 * m2 / 2 ^ s2) + 10 * ((m2 : ℚ) / 2 ^ s2 - (km : ℚ) / b2)| +
              |(1 / 100 : ℚ) * ((km : ℚ) / 2 ^ s - (n : ℚ) / 1000)| := abs_add _ _
        _ ≤ |(t : ℚ) - 10 * m2 / 2 ^ s2| + |(10:ℚ) * ((m2 : ℚ) / 2 ^ s2 - (km : ℚ) / b2)| +
              |(1 / 100 : ℚ) * ((km : ℚ) / 2 ^ s - (n : ℚ) / 1000)| := by
            have := abs_add ((t : ℚ) - 10 * m2 / 2 ^ s2)
              ((10:ℚ) * ((m2 : ℚ) / 2 ^ s2 - (km : ℚ) / b2))
            linarith
        _ ≤ 1 / 2 + 10 * (1 / 2 ^ (s2 + 1)) + (1 / 100) * (1 / 2 ^ (s + 1)) := by
            rw [h10, h100]
            have h3 := mul_le_mul_of_nonneg_left e2 (by norm_num : (0:ℚ) ≤ 10)
            have h4 := mul_le_mul_of_nonneg_left e3 (by norm_num : (0:ℚ) ≤ 1 / 100)
            linarith [e1]
    have hpow2 : (2:ℚ) ^ 20 ≤ 2 ^ (s2 + 1) := by
      apply pow_le_pow_right₀ (by norm_num) (by omega)
    have hsmall2 : 10 * ((1:ℚ) / 2 ^ (s2 + 1)) ≤ 1 / 100000 := by
      have h4 : (1:ℚ) / 2 ^ (s2 + 1) ≤ 1 / 2 ^ 20 :=
        one_div_le_one_div_of_le (by positivity) hpow2
      have h5 : (10:ℚ) * (1 / 2 ^ 20) ≤ 1 / 100000 := by norm_num
      nlinarith [h4]
    have hpow3 : (2:ℚ) ^ 1 ≤ 2 ^ (s + 1) := by
      apply pow_le_pow_right₀ (by norm_num) (by omega)
    have hsmall3 : (1 / 100 : ℚ) * (1 / 2 ^ (s + 1)) ≤ 1 / 200 := by
      have h4 : (1:ℚ) / 2 ^ (s + 1) ≤ 1 / 2 ^ 1 :=
        one_div_le_one_div_of_le (by positivity) hpow3
      nlinarith [h4]
    linarith [habs, hsmall2, hsmall3]

/-- The leaf sum of one message's leaves is the sum of the part sizes. -/
theorem leafSumList_partLeaves (cwd projectPath : String) (msgIndex : Nat) :
    ∀ (parts : List Part) (j0 : Nat),
      leafSumList (partLeaves cwd projectPath msgIndex j0 parts) =
        (parts.map getPartSize).sum
  | [], _ => by simp [partLeaves, leafSumList]
  | p :: rest, j0 => by
      simp [partLeaves, leafSumList, leafSum, partLeaf,
        leafSumList_partLeaves cwd projectPath msgIndex rest (j0 + 1)]

/-! ### Claims C1 - C5 -/

/-- C1: for a tool part in the `completed` sub-state the Size Estimator
returns the length of the JSON-serialized input plus the length of the
output; when the completed state's `compacted` flag is set the output
contributes 0 and the size is the serialized input length alone. -/
theorem getPartSize_completed_spec (tool : String) (input : Json) (output : String) :
    getPartSize (.tool tool (.completed input output ⟨false⟩)) =
      (jsonStringify input).length + output.length
  ∧ getPartSize (.tool tool (.completed input output ⟨true⟩)) =
      (jsonStringify input).length := by
  exact ⟨rfl, by simp [getPartSize]⟩

/-- C2: for a tool part in the `pending` or `running` sub-state the Size
Estimator returns the length of the JSON-serialized input; in the
`error` sub-state it returns the serialized input length plus the length
of the error message. -/
theorem getPartSize_pending_running_error_spec (tool : String) (input : Json)
    (msg : String) :
    getPartSize (.tool tool (.pending input)) = (jsonStringify input).length
  ∧ getPartSize (.tool tool (.running input)) = (jsonStringify input).length
  ∧ getPartSize (.tool tool (.error input msg)) =
      (jsonStringify input).length + msg.length :=
  ⟨rfl, rfl, rfl⟩

/-- C3: the control/bookkeeping part kinds `step-start`, `step-finish`,
`snapshot`, `patch`, `agent`, `retry` and `compaction` are sized 0 by the
default Size Estimator; the alternate iteration instead charges the full
serialized size of the part. -/
theorem getPartSize_control_spec :
    (getPartSize .stepStart = 0 ∧ getPartSize .stepFinish = 0 ∧
     getPartSize .snapshot = 0 ∧ getPartSize .patch = 0 ∧
     getPartSize .agent = 0 ∧ getPartSize .retry = 0 ∧
     getPartSize .compaction = 0)
  ∧ ∀ stringifyPart : Part → String,
      getPartSizeAlt stringifyPart .stepStart = (stringifyPart .stepStart).length ∧
      getPartSizeAlt stringifyPart .stepFinish = (stringifyPart .stepFinish).length ∧
      getPartSizeAlt stringifyPart .snapshot = (stringifyPart .snapshot).length ∧
      getPartSizeAlt stringifyPart .patch = (stringifyPart .patch).length ∧
      getPartSizeAlt stringifyPart .agent = (stringifyPart .agent).length ∧
      getPartSizeAlt stringifyPart .retry = (stringifyPart .retry).length ∧
      getPartSizeAlt stringifyPart .compaction = (stringifyPart .compaction).length :=
  ⟨⟨rfl, rfl, rfl, rfl, rfl, rfl, rfl⟩,
   fun _ => ⟨rfl, rfl, rfl, rfl, rfl, rfl, rfl⟩⟩

/-- C4: file-like paths are labelled with the path relative to the
project root, falling back to the original path when the relative path
begins with a parent-directory traversal; with root `/proj`, path
`/proj/src/a.ts` is labelled `src/a.ts` and `/other/b.ts` keeps its
absolute form. -/
theorem getPartLabel_relativize_spec :
    (∀ cwd projectPath p filename url,
        getPartLabel cwd (.file (some ⟨none, some p⟩) filename url) projectPath =
          "file:" ++ (if strStartsWith (posixRelative cwd projectPath p) ".."
                      then p else posixRelative cwd projectPath p))
  ∧ (∀ cwd projectPath p,
        getPartLabel cwd (.tool "read" (.pending (.obj [("filePath", .str p)]))) projectPath =
          "tool:read:" ++ (if strStartsWith (posixRelative cwd projectPath p) ".."
                           then p else posixRelative cwd projectPath p))
  ∧ getPartLabel "/cwd" (.file (some ⟨none, some "/proj/src/a.ts"⟩) none "u") "/proj" =
      "file:src/a.ts"
  ∧ getPartLabel "/cwd" (.file (some ⟨none, some "/other/b.ts"⟩) none "u") "/proj" =
      "file:/other/b.ts" :=
  ⟨fun _ _ _ _ _ => rfl, fun _ _ _ => rfl, by decide, by decide⟩

/-- C5: the size formatter renders `n` below 1000 as `"<n> chars"`,
`n` in `[1000, 1000000)` as one decimal of `n / 1000` with suffix
`"K chars"`, and otherwise one decimal of `n / 1000000` with suffix
`"M chars"`; `999`, `1500` and `2300000` render as stated.  The decimal
is the program's: binary64 division then ECMA `toFixed(1)`, so the
tenths count `t` is within `51 / 100` of the exact tenths of `n / 1000`
(resp. `n / 10^6`), and e.g. `1150` renders as `"1.1K chars"` because
the double `1150 / 1000` lies below `1.15`. -/
theorem formatCharSize_spec :
    (∀ n : Nat, n < 1000 → formatCharSize n = toString n ++ " chars")
  ∧ (∀ n : Nat, 1000 ≤ n → n < 1000000 → ∃ t : Nat,
        formatCharSize n = toFixed1 t ++ "K chars" ∧
          |(t : ℚ) - (n : ℚ) / 100| ≤ 51 / 100)
  ∧ (∀ n : Nat, 1000000 ≤ n → n < 2 ^ 53 → ∃ t : Nat,
        formatCharSize n = toFixed1 t ++ "M chars" ∧
          |(t : ℚ) - (n : ℚ) / 100000| ≤ 51 / 100)
  ∧ formatCharSize 999 = "999 chars"
  ∧ formatCharSize 1500 = "1.5K chars"
  ∧ formatCharSize 2300000 = "2.3M chars"
  ∧ formatCharSize 1150 = "1.1K chars" := by
  refine ⟨fun n h => ?_, formatCharSize_K, formatCharSize_M,
    by decide, by decide, by decide, by decide⟩
  simp only [formatCharSize]
  rw [if_pos h]

/-- Witness for `formatCharSize_spec`: the three guarded clauses applied
at `500`, `2500` and `3500000`. -/
theorem formatCharSize_spec_witness :
    (formatCharSize 500 = toString 500 ++ " chars")
  ∧ (∃ t : Nat, formatCharSize 2500 = toFixed1 t ++ "K chars" ∧
        |(t : ℚ) - ((2500 : ℕ) : ℚ) / 100| ≤ 51 / 100)
  ∧ (∃ t : Nat, formatCharSize 3500000 = toFixed1 t ++ "M chars" ∧
        |(t : ℚ) - ((3500000 : ℕ) : ℚ) / 100000| ≤ 51 / 100) :=
  ⟨formatCharSize_spec.1 500 (by decide),
   formatCharSize_spec.2.1 2500 (by decide) (by decide),
   formatCharSize_spec.2.2.1 3500000 (by decide) (by decide)⟩

/-! ### Claims C6 and C8 -/

/-- C6: the Tree Builder produces a single root named `session` with size
0 whose children are, in session order, one container per message named
`<role>:<messageIndex>` with `" (last)"` appended exactly for the final
message; each part becomes, in message order, a direct child leaf whose
value is the Size Estimator's size. -/
theorem tree_builder_shape_spec (cwd projectPath : String) (msgs : List Message) :
    (rootNode cwd projectPath msgs).name = "session"
  ∧ (rootNode cwd projectPath msgs).value = 0
  ∧ (rootNode cwd projectPath msgs).children = some (messageNodes cwd projectPath msgs)
  ∧ (messageNodes cwd projectPath msgs).length = msgs.length
  ∧ ∀ i m, msgs[i]? = some m →
      ∃ node, (messageNodes cwd projectPath msgs)[i]? = some node
        ∧ node.name = m.info.role ++ ":" ++ toString i ++
            (if i = msgs.length - 1 then " (last)" else "")
        ∧ node.value = 0
        ∧ ∃ kids, node.children = some kids
            ∧ kids.length = m.parts.length
            ∧ ∀ j p, m.parts[j]? = some p →
                kids[j]? = some (partLeaf cwd projectPath i j p)
                ∧ (partLeaf cwd projectPath i j p).value = getPartSize p
                ∧ (partLeaf cwd projectPath i j p).children = none := by
  refine ⟨rfl, rfl, rfl,
    messageNodesFrom_length cwd projectPath msgs.length msgs 0, fun i m hm => ?_⟩
  refine ⟨messageNode cwd projectPath msgs.length i m, ?_, rfl, rfl,
    partLeaves cwd projectPath i 0 m.parts, rfl,
    partLeaves_length cwd projectPath i m.parts 0, fun j p hp => ?_⟩
  · rw [messageNodes_getElem, hm]; rfl
  · refine ⟨?_, rfl, rfl⟩
    rw [partLeaves_getElem, hp]
    simp

/-- Witness for `tree_builder_shape_spec`: the second message of the
sample session yields the `assistant:1 (last)` container with two
leaves. -/
theorem tree_builder_shape_spec_witness :
    ∃ node, (messageNodes "/cwd" "/proj" sampleMessages)[1]? = some node
      ∧ node.name = "assistant:1 (last)"
      ∧ node.value = 0
      ∧ ∃ kids, node.children = some kids ∧ kids.length = 2 := by
  obtain ⟨node, h1, h2, h3, kids, h4, h5, -⟩ :=
    (tree_builder_shape_spec "/cwd" "/proj" sampleMessages).2.2.2.2 1
      ⟨⟨"assistant"⟩, [Part.text "hi", Part.reasoning "deep"]⟩ rfl
  refine ⟨node, h1, ?_, h3, kids, h4, ?_⟩
  · rw [h2]; decide
  · simpa using h5

/-- C8: for every message of a session, the sum of the leaf values under
that message's node in the built tree equals the sum of the Size
Estimator's sizes computed independently over that message's parts. -/
theorem message_mass_spec (cwd projectPath : String) (msgs : List Message)
    (i : Nat) (m : Message) (h : msgs[i]? = some m) :
    ∃ node, (messageNodes cwd projectPath msgs)[i]? = some node
      ∧ leafSum node = (m.parts.map getPartSize).sum := by
  refine ⟨messageNode cwd projectPath msgs.length i m, ?_, ?_⟩
  · rw [messageNodes_getElem, h]; rfl
  · simp [messageNode, leafSum, leafSumList_partLeaves cwd projectPath i m.parts 0]

/-- Witness for `message_mass_spec`: the second sample message has leaf
mass `"hi".length + "deep".length = 6`. -/
theorem message_mass_spec_witness :
    ∃ node, (messageNodes "/cwd" "/proj" sampleMessages)[1]? = some node
      ∧ leafSum node = 6 := by
  obtain ⟨node, h1, h2⟩ :=
    message_mass_spec "/cwd" "/proj" sampleMessages 1
      ⟨⟨"assistant"⟩, [Part.text "hi", Part.reasoning "deep"]⟩ rfl
  refine ⟨node, h1, ?_⟩
  rw [h2]; decide

/-! ### Claims C7 and C10 -/

/-- C7: every node of the built tree with non-empty children has value
0, and every node without children is a leaf carrying the leaf key
`<messageIndex>-<partIndex>` of its originating part; distinct positions
yield distinct keys, so identical labels are never merged. -/
theorem tree_node_invariant_spec (cwd projectPath : String) (msgs : List Message) :
    (∀ node, node ∈ subNodes (rootNode cwd projectPath msgs) →
      ((∃ kids, node.children = some kids ∧ kids ≠ []) → node.value = 0)
      ∧ (node.children = none →
          ∃ i j m p, msgs[i]? = some m ∧ m.parts[j]? = some p
            ∧ node.partKey = some (partKeyString i j)
            ∧ node = partLeaf cwd projectPath i j p))
  ∧ (∀ i j i' j', partKeyString i j = partKeyString i' j' → i = i' ∧ j = j') := by
  refine ⟨fun node hmem => ?_, fun i j i' j' h => partKeyString_inj i j i' j' h⟩
  rcases (mem_subNodes_rootNode cwd projectPath msgs node).mp hmem with
    rfl | ⟨i, m, hi, rfl⟩ | ⟨i, m, j, p, hi, hj, rfl⟩
  · exact ⟨fun _ => rfl, fun hc => by simp [rootNode, TreeNode.children] at hc⟩
  · exact ⟨fun _ => rfl, fun hc => by simp [messageNode, TreeNode.children] at hc⟩
  · refine ⟨?_, fun _ => ⟨i, j, m, p, hi, hj, rfl, rfl⟩⟩
    rintro ⟨kids, hk, -⟩
    simp [partLeaf, TreeNode.children] at hk

/-- Witness for `tree_node_invariant_spec`: the first leaf of the sample
session is in the tree and resolves to its originating part. -/
theorem tree_node_invariant_spec_witness :
    ∃ i j m p, sampleMessages[i]? = some m ∧ m.parts[j]? = some p
      ∧ (partLeaf "/cwd" "/proj" 0 0 (Part.text "hello")).partKey =
          some (partKeyString i j)
      ∧ partLeaf "/cwd" "/proj" 0 0 (Part.text "hello") =
          partLeaf "/cwd" "/proj" i j p :=
  ((tree_node_invariant_spec "/cwd" "/proj" sampleMessages).1
    (partLeaf "/cwd" "/proj" 0 0 (Part.text "hello"))
    ((mem_subNodes_rootNode "/cwd" "/proj" sampleMessages _).mpr
      (Or.inr (Or.inr ⟨0, ⟨⟨"user"⟩, [Part.text "hello"]⟩, 0, Part.text "hello",
        rfl, rfl, rfl⟩)))).2 rfl

/-- C10: the `partsMap` index maps each leaf's key to exactly the part
the leaf was built from: distinct positions get distinct keys, every
leaf's key resolves in the map to its originating part, selecting such a
leaf selects that part, and a key absent from the map (or an absent key)
leaves the selection unchanged. -/
theorem parts_index_spec (cwd projectPath : String) (msgs : List Message) :
    (∀ i j i' j', partKeyString i j = partKeyString i' j' → i = i' ∧ j = j')
  ∧ (∀ i m j p, msgs[i]? = some m → m.parts[j]? = some p →
      (partLeaf cwd projectPath i j p).partKey = some (partKeyString i j)
      ∧ List.lookup (partKeyString i j) (partsMap msgs) = some p
      ∧ ∀ selected, handleLeafSelect (partsMap msgs)
          (partLeaf cwd projectPath i j p) selected = some p)
  ∧ (∀ node k selected, node.partKey = some k →
      List.lookup k (partsMap msgs) = none →
      handleLeafSelect (partsMap msgs) node selected = selected)
  ∧ (∀ node selected, node.partKey = none →
      handleLeafSelect (partsMap msgs) node selected = selected) := by
  refine ⟨fun i j i' j' h => partKeyString_inj i j i' j' h,
    fun i m j p hm hp => ?_, fun node k selected hk hn => ?_,
    fun node selected hk => ?_⟩
  · have hl := lookup_partsMap msgs i m j p hm hp
    exact ⟨rfl, hl, fun selected => by
      simp [handleLeafSelect, partLeaf, TreeNode.partKey, hl]⟩
  · simp [handleLeafSelect, hk, hn]
  · simp [handleLeafSelect, hk]

/-- Witness for `parts_index_spec`: the second leaf of the second sample
message resolves through the map to its part and gets selected. -/
theorem parts_index_spec_witness :
    (partLeaf "/cwd" "/proj" 1 1 (Part.reasoning "deep")).partKey =
        some (partKeyString 1 1)
  ∧ List.lookup (partKeyString 1 1) (partsMap sampleMessages) =
        some (Part.reasoning "deep")
  ∧ ∀ selected, handleLeafSelect (partsMap sampleMessages)
        (partLeaf "/cwd" "/proj" 1 1 (Part.reasoning "deep")) selected =
          some (Part.reasoning "deep") :=
  (parts_index_spec "/cwd" "/proj" sampleMessages).2.1 1
    ⟨⟨"assistant"⟩, [Part.text "hi", Part.reasoning "deep"]⟩ 1
    (Part.reasoning "deep") rfl rfl

/-! ### Claim C9 -/

/-- C9 counterexample: with empty project root (fetch failure fallback)
the Label Classifier does not emit every file path unchanged: under
working directory `/proj`, the absolute path `/proj/a.ts` is relativized
against the working directory to `a.ts`. -/
theorem empty_root_label_counterexample :
    resolveProjectPath none = ""
  ∧ getPartLabel "/proj" (.file (some ⟨none, some "/proj/a.ts"⟩) none "u") "" =
      "file:a.ts"
  ∧ getPartLabel "/proj" (.file (some ⟨none, some "/proj/a.ts"⟩) none "u") "" ≠
      "file:" ++ "/proj/a.ts" :=
  ⟨rfl, by decide, by decide⟩

/-- C9 (amended): when the session's working-directory metadata cannot
be fetched, loading is non-fatal and the project root falls back to the
empty string; with an empty root `path.relative` resolves both sides
against the process working directory, so a relative, normalized path
(no empty, `"."` or `".."` pieces) is emitted unchanged, while an
absolute path may be relativized against the working directory. -/
theorem empty_root_label_spec (cwd p : String) (filename : Option String)
    (url : String)
    (h : ∀ seg ∈ splitSlash p, seg ≠ "" ∧ seg ≠ "." ∧ seg ≠ "..") :
    resolveProjectPath none = ""
  ∧ getPartLabel cwd (.file (some ⟨none, some p⟩) filename url) "" = "file:" ++ p := by
  refine ⟨rfl, ?_⟩
  simp only [getPartLabel, posixRelative_empty_root cwd p h]
  simp

/-- Witness for `empty_root_label_spec`: the relative path `src/a.ts`
under working directory `/w`. -/
theorem empty_root_label_spec_witness :
    resolveProjectPath none = ""
  ∧ getPartLabel "/w" (.file (some ⟨none, some "src/a.ts"⟩) none "u") "" =
      "file:" ++ "src/a.ts" :=
  empty_root_label_spec "/w" "src/a.ts" none "u" (by decide)

end Opencode
